import Mathlib

/-!
Shallow embedding of the site-crawling core of the repository
(`src/user-tech/url-crawl-to-docx/url_crawl.py`), together with theorems
settling the frozen claims about it.

The crawler's own functions (`normalize_url`, `same_domain`, `extract_text`,
`get_sublinks`, `crawl_and_extract`, the CLI validation of `main`) are
translated from the Python source.  The standard-library and third-party
calls they make (`urllib.parse.urldefrag` / `urlparse` / `urljoin`,
`requests.Session.get` + `raise_for_status`, BeautifulSoup text/link
extraction, `python-docx` section appending) are external collaborators; they
are modelled at their boundary: URL string manipulation follows CPython's
`urllib.parse` semantics, and the network is an oracle that answers each
`session.get` call (calls are indexed, since two GETs of the same address may
answer differently on a real network).  Machine integers do not occur: the
Python ints involved (page counts, depths) are unbounded, modelled as `Nat`
where the validated CLI guarantees non-negativity and as `Int` where it does
not.
-/

/-! ## URL helpers: models of `urllib.parse` pieces used by the source -/


/-- Model of `urllib.parse.urldefrag` on the character list of a URL, at the
collaborator boundary: everything from the first `'#'` on (the fragment) is
discarded.  On a fragment-free URL CPython returns the input unchanged,
exactly as here; when a `'#'` is present CPython additionally
re-canonicalizes the kept part through `urlparse`/`urlunparse` (for instance
lower-casing the scheme), which this model omits — no theorem below reads
anything off the kept part beyond it containing no `'#'` and its trailing
slashes being stripped, properties the canonicalized form shares. -/
def defragList : List Char → List Char
  | [] => []
  | c :: cs => if c = '#' then [] else c :: defragList cs

/-- Model of Python `str.rstrip` with a one-character strip set: every
trailing occurrence of `strip` is removed. -/
def rstripChar (strip : Char) (l : List Char) : List Char :=
  (l.reverse.dropWhile (fun c => c == strip)).reverse

/-- `normalize_url` from the source: drop the fragment, then `rstrip("/")`. -/
def normalize_url (url : String) : String :=
  ⟨rstripChar '/' (defragList url.data)⟩

/-- Characters CPython's `urlsplit` accepts inside a scheme after the leading
letter: letters, digits, `'+'`, `'-'`, `'.'`. -/
def isSchemeChar (c : Char) : Bool :=
  c.isAlpha || c.isDigit || c == '+' || c == '-' || c == '.'

/-- Split a character list at its first `':'`, returning the parts before and
after it, or `none` when there is no colon. -/
def splitColon : List Char → Option (List Char × List Char)
  | [] => none
  | c :: cs =>
    if c = ':' then some ([], cs)
    else match splitColon cs with
      | some (a, b) => some (c :: a, b)
      | none => none

/-- Scheme extraction as in CPython `urlsplit`: if the text before the first
colon is non-empty, starts with an ASCII letter and consists of scheme
characters, it is the scheme (lower-cased) and the rest follows the colon;
otherwise there is no scheme and the whole input remains. -/
def splitScheme (l : List Char) : List Char × List Char :=
  match splitColon l with
  | none => ([], l)
  | some (pre, post) =>
    match pre with
    | [] => ([], l)
    | c :: cs =>
      if c.isAlpha && (c :: cs).all isSchemeChar then ((c :: cs).map Char.toLower, post)
      else ([], l)

/-- Netloc extraction as in CPython `urlsplit`: when the remainder after the
scheme starts with `"//"`, the netloc runs up to the first `'/'`, `'?'` or
`'#'`; otherwise it is empty. -/
def splitNetloc (l : List Char) : List Char × List Char :=
  match l with
  | '/' :: '/' :: rest =>
    (rest.takeWhile (fun c => !(c == '/' || c == '?' || c == '#')),
     rest.dropWhile (fun c => !(c == '/' || c == '?' || c == '#')))
  | _ => ([], l)

/-- The parts of a URL this program looks at: scheme, netloc, and the rest
(path, query, fragment — never inspected individually by the crawler). -/
structure UrlParts where
  scheme : String
  netloc : String
  rest : String
deriving DecidableEq, Repr

/-- Model of `urllib.parse.urlparse` restricted to the fields the source
reads (`scheme`, `netloc`). -/
def urlparse (url : String) : UrlParts :=
  let sp := splitScheme url.data
  let np := splitNetloc sp.2
  ⟨⟨sp.1⟩, ⟨np.1⟩, ⟨np.2⟩⟩

/-- `same_domain` from the source: the candidate's scheme must be `http` or
`https`, and the candidate's netloc must equal the base's netloc.  (The
source never compares the schemes with each other.) -/
def same_domain (base candidate : String) : Bool :=
  let b := urlparse base
  let c := urlparse candidate
  (c.scheme == "http" || c.scheme == "https") && c.netloc == b.netloc

/-- Model of `urllib.parse.urljoin` at the collaborator boundary (spec §4.1,
§6), covering the reference shapes this crawler meets: a reference carrying
its own scheme is returned unchanged; a scheme-relative reference takes the
base's scheme; a root-relative path is attached to the base's origin; any
other reference replaces the final segment of the base's path.  Dot-segment
resolution is not modelled; no claim exercises it. -/
def urljoin (base url : String) : String :=
  if url.data = [] then base
  else if (splitScheme url.data).1 ≠ [] then url
  else
    let b := urlparse base
    match url.data with
    | '/' :: '/' :: _ => b.scheme ++ ":" ++ url
    | '/' :: _ => b.scheme ++ "://" ++ b.netloc ++ url
    | _ =>
      let dir := (b.rest.data.reverse.dropWhile (fun c => !(c == '/'))).reverse
      b.scheme ++ "://" ++ b.netloc ++ (⟨dir⟩ : String) ++ url

/-! ## The crawl loop of `crawl_and_extract` -/


/-- What one successful `session.get` yields once the Content Extractor
collaborator (BeautifulSoup) has run over the body: the visible text and the
raw `href` targets of the page's anchors (spec §6). -/
structure PageContent where
  text : String
  hrefs : List String
deriving DecidableEq

/-- The network oracle at the Page Fetcher boundary: the `k`-th `session.get`
of the run, applied to an address, either fails (`none`: network error,
timeout, or non-2xx status raised by `raise_for_status`) or yields the page.
Indexing by the call counter keeps the model honest about the source's two
separate GETs per page: on a real network they may answer differently. -/
def Net : Type := Nat → String → Option PageContent

/-- `extract_text` from the source, at call index `k`: one GET; on success
the page's visible text (script/style/noscript stripping lives inside the
Content Extractor boundary), on failure `None`. -/
def extract_text (net : Net) (k : Nat) (url : String) : Option String :=
  (net k url).map PageContent.text

/-- Python `set.add` on the model's link accumulator: deduplicating insert.
CPython iterates a `set` in an unspecified order; the model keeps first-insert
order, and no claim proved here depends on the order among siblings. -/
def insertLink (links : List String) (u : String) : List String :=
  if u ∈ links then links else links ++ [u]

/-- The body of `get_sublinks`'s anchor loop: absolutize the raw href against
`base_url`, normalize it, and keep it only when `same_domain` admits it. -/
def addLink (base_url : String) (acc : List String) (href : String) : List String :=
  let full := normalize_url (urljoin base_url href)
  if same_domain base_url full then insertLink acc full else acc

/-- `get_sublinks` from the source, at call index `k`: a second GET of `url`;
on failure the empty link set, on success every admitted, normalized link. -/
def get_sublinks (net : Net) (k : Nat) (base_url url : String) : List String :=
  match net k url with
  | none => []
  | some p => p.hrefs.foldl (addLink base_url) []

/-- The crawl loop's state: the frontier deque `q`, the `visited` set (as a
list with membership tests), the Document's appended `(heading, paragraph)`
sections, and the `pages_written` counter — plus ghost traces that record
what the run did: `calls` counts GETs issued, `fetched` lists every address
passed to `session.get` in order, `textFetched` the sub-trace issued by
`extract_text`, and `processed` every `(url, depth)` entry that survived the
visited check (one per dequeued-and-claimed page). -/
structure CrawlState where
  q : List (String × Nat)
  visited : List String
  sections : List (String × String)
  written : Nat
  calls : Nat
  fetched : List String
  textFetched : List String
  processed : List (String × Nat)

/-- Document update for one processed page: `if text:` in the source appends
a heading plus a paragraph only when the fetch succeeded with non-empty text
(Python string truthiness). -/
def sectionsAfter (secs : List (String × String)) (url : String) :
    Option String → List (String × String)
  | some t => if t ≠ "" then secs ++ [(url, t)] else secs
  | none => secs

/-- Counter update matching `sectionsAfter`. -/
def writtenAfter (w : Nat) : Option String → Nat
  | some t => if t ≠ "" then w + 1 else w
  | none => w

/-- The source's sublink loop: append `(link, depth+1)` for every discovered
link not yet in `visited` (the queue itself is not consulted). -/
def enqueueLinks (visited : List String) (depth : Nat) (links : List String)
    (q : List (String × Nat)) : List (String × Nat) :=
  links.foldl (fun acc link => if link ∈ visited then acc else acc ++ [(link, depth + 1)]) q

/-- One iteration of the `while` loop of `crawl_and_extract`: pop the front
entry; a revisited address is dropped; otherwise the address is claimed,
`extract_text` issues one GET (call `s.calls`), and when `depth < maxDepth`
`get_sublinks` issues a second GET (call `s.calls + 1`) whose admitted links
are enqueued at `depth + 1`. -/
def step (net : Net) (maxDepth : Nat) (base : String) (s : CrawlState) : CrawlState :=
  match s.q with
  | [] => s
  | (url, depth) :: rest =>
    if url ∈ s.visited then
      { s with q := rest }
    else
      let textR := extract_text net s.calls url
      if depth < maxDepth then
        let links := get_sublinks net (s.calls + 1) base url
        { q := enqueueLinks (s.visited ++ [url]) depth links rest
          visited := s.visited ++ [url]
          sections := sectionsAfter s.sections url textR
          written := writtenAfter s.written textR
          calls := s.calls + 2
          fetched := s.fetched ++ [url, url]
          textFetched := s.textFetched ++ [url]
          processed := s.processed ++ [(url, depth)] }
      else
        { q := rest
          visited := s.visited ++ [url]
          sections := sectionsAfter s.sections url textR
          written := writtenAfter s.written textR
          calls := s.calls + 1
          fetched := s.fetched ++ [url]
          textFetched := s.textFetched ++ [url]
          processed := s.processed ++ [(url, depth)] }

/-- The `while q and pages_written < max_pages` loop, fuel-indexed: `fuel`
bounds the number of iterations, so `crawl n init` is exactly the state after
`n` iterations (or the final state, once the loop's guard fails).  The Python
loop need not terminate on an infinite site, so a fuel index quantified over
all values is the faithful rendering. -/
def crawl (net : Net) (maxPages maxDepth : Nat) (base : String) :
    Nat → CrawlState → CrawlState
  | 0, s => s
  | n + 1, s =>
    if s.q = [] ∨ ¬ s.written < maxPages then s
    else crawl net maxPages maxDepth base n (step net maxDepth base s)

/-- The state `crawl_and_extract` builds before entering the loop: the seed
is the normalized start address at depth 0. -/
def initState (start_url : String) : CrawlState :=
  { q := [(normalize_url start_url, 0)], visited := [], sections := [],
    written := 0, calls := 0, fetched := [], textFetched := [], processed := [] }

/-- A whole run of `crawl_and_extract`'s loop: the source normalizes
`start_url` first and then uses it both as the seed and as the `base_url`
handed to `get_sublinks`. -/
def crawlRun (net : Net) (maxPages maxDepth : Nat) (start_url : String)
    (fuel : Nat) : CrawlState :=
  crawl net maxPages maxDepth (normalize_url start_url) fuel (initState start_url)

/-! ## The CLI validation of `main` -/


/-- The configuration `main` hands to `crawl_and_extract` after clamping. -/
structure EffConfig where
  maxPages : Int
  maxDepth : Int
  delaySeconds : Int
  timeout : Int
deriving DecidableEq, Repr

/-- Model of Python `str.startswith` with a single string argument, on
character lists. -/
def startsWithList : List Char → List Char → Bool
  | _, [] => true
  | [], _ :: _ => false
  | c :: cs, p :: ps => c == p && startsWithList cs ps

/-- Model of Python `str.startswith` on strings. -/
def strStartsWith (s pre : String) : Bool :=
  startsWithList s.data pre.data

/-- The input validation of `main`: a start URL that does not begin with
`http://` or `https://` aborts with exit code 1 (`none`) before any crawling;
every other input proceeds (`some`), with the numeric options clamped —
`max(1, max_pages)`, `max(0, max_depth)`, `max(0, delay)`, `max(1, timeout)`.
The delay is a Python float clamped with `max(0.0, ·)`; its value never
influences control flow, so an integral carrier loses nothing the claims
touch. -/
def mainValidate (start_url : String) (maxPages maxDepth delaySeconds timeout : Int) :
    Option EffConfig :=
  if strStartsWith start_url "http://" || strStartsWith start_url "https://" then
    some ⟨max 1 maxPages, max 0 maxDepth, max 0 delaySeconds, max 1 timeout⟩
  else none

/-! ## Invariants of the crawl loop -/


/-- Fetch-count invariant: an unvisited address has never been fetched nor
processed; any address reaches at most two GETs in total, at most one of them
the `extract_text` GET, and is processed at most once. -/
def FetchInv (s : CrawlState) : Prop :=
  ∀ a : String,
    (a ∉ s.visited → s.fetched.count a = 0 ∧ s.textFetched.count a = 0
      ∧ (s.processed.map Prod.fst).count a = 0)
    ∧ s.fetched.count a ≤ 2 ∧ s.textFetched.count a ≤ 1
    ∧ (s.processed.map Prod.fst).count a ≤ 1

/-- Budget invariant: the section list mirrors `pages_written`, which never
exceeds `max_pages`. -/
def BudgetInv (mp : Nat) (s : CrawlState) : Prop :=
  s.sections.length = s.written ∧ s.written ≤ mp

/-- Depth invariant: every frontier entry and every processed entry sits at
depth at most `max_depth`. -/
def DepthInv (md : Nat) (s : CrawlState) : Prop :=
  (∀ u d, (u, d) ∈ s.q → d ≤ md) ∧ (∀ u d, (u, d) ∈ s.processed → d ≤ md)

/-- With `max_depth = 0`, the frontier can only ever hold the seed, and only
the seed is ever passed to a GET. -/
def SeedOnlyInv (seed : String) (s : CrawlState) : Prop :=
  (∀ e ∈ s.q, e = (seed, 0)) ∧ (∀ u ∈ s.fetched, u = seed)

/-- Normalization invariant: every visited address and every frontier address
is a fixed point of `normalize_url`. -/
def NormInv (s : CrawlState) : Prop :=
  (∀ a ∈ s.visited, normalize_url a = a) ∧ (∀ u d, (u, d) ∈ s.q → normalize_url u = u)

/-! ## Concrete sites used as counterexamples and scenario inputs -/


/-- An oracle whose every GET succeeds with non-empty text and no links. -/
def constNet : Net := fun _ _ => some ⟨"T", []⟩

/-- An oracle whose every GET fails. -/
def downNet : Net := fun _ _ => none

/-- An oracle whose first GET (call index 0) fails while every later GET
succeeds: page `a` links to page `b`, which links nowhere. -/
def flakyNet : Net := fun k u =>
  if k = 0 then none
  else if u = "http://e/a" then some ⟨"TA", ["http://e/b"]⟩
  else if u = "http://e/b" then some ⟨"TB", []⟩
  else none

/-- The linear-chain site of the scenario claim: A→B→C→D, each page linking
only to the next, every fetch succeeding with non-empty text. -/
def chainNet : Net := fun _ u =>
  if u = "http://ex.com/a" then some ⟨"TA", ["http://ex.com/b"]⟩
  else if u = "http://ex.com/b" then some ⟨"TB", ["http://ex.com/c"]⟩
  else if u = "http://ex.com/c" then some ⟨"TC", ["http://ex.com/d"]⟩
  else if u = "http://ex.com/d" then some ⟨"TD", []⟩
  else none

/-! ## Basic lemmas about the URL helpers -/

theorem defragList_no_hash (l : List Char) : '#' ∉ defragList l := by
  induction l with
  | nil => simp [defragList]
  | cons c cs ih =>
    by_cases hc : c = '#'
    · simp [defragList, hc]
    · simp only [defragList, if_neg hc, List.mem_cons]
      rintro (h | h)
      · exact hc h.symm
      · exact ih h

theorem defragList_of_no_hash (l : List Char) (h : '#' ∉ l) : defragList l = l := by
  induction l with
  | nil => rfl
  | cons c cs ih =>
    simp only [List.mem_cons, not_or] at h
    simp only [defragList, if_neg (Ne.symm h.1)]
    rw [ih h.2]

theorem dropWhile_front {α : Type} (p : α → Bool) (l : List α) :
    ∃ t, l = t ++ l.dropWhile p := by
  induction l with
  | nil => exact ⟨[], rfl⟩
  | cons c cs ih =>
    by_cases hc : p c
    · obtain ⟨t, ht⟩ := ih
      exact ⟨c :: t, by simpa [List.dropWhile, hc] using ht⟩
    · exact ⟨[], by simp [List.dropWhile, hc]⟩

theorem dropWhile_dropWhile {α : Type} (p : α → Bool) (l : List α) :
    (l.dropWhile p).dropWhile p = l.dropWhile p := by
  induction l with
  | nil => rfl
  | cons c cs ih =>
    by_cases hc : p c
    · simpa [List.dropWhile, hc] using ih
    · simp [List.dropWhile, hc]

theorem head?_dropWhile {α : Type} (p : α → Bool) (l : List α) (x : α)
    (h : (l.dropWhile p).head? = some x) : p x = false := by
  induction l with
  | nil => simp [List.dropWhile] at h
  | cons c cs ih =>
    by_cases hc : p c
    · exact ih (by simpa [List.dropWhile, hc] using h)
    · simp only [List.dropWhile, hc, List.head?] at h
      cases h
      simpa using hc

theorem rstripChar_front (c : Char) (l : List Char) :
    ∃ t, l = rstripChar c l ++ t := by
  obtain ⟨t, ht⟩ := dropWhile_front (fun x => x == c) l.reverse
  refine ⟨t.reverse, ?_⟩
  have := congrArg List.reverse ht
  simpa [rstripChar] using this

theorem rstripChar_idem (c : Char) (l : List Char) :
    rstripChar c (rstripChar c l) = rstripChar c l := by
  simp [rstripChar, dropWhile_dropWhile]

theorem rstripChar_last (c : Char) (l : List Char) :
    (rstripChar c l).getLast? ≠ some c := by
  intro h
  rw [rstripChar, List.getLast?_reverse] at h
  have := head?_dropWhile (fun x => x == c) l.reverse c h
  simp at this

theorem mem_of_front {α : Type} {x : α} {f t l : List α} (hl : l = f ++ t)
    (hx : x ∈ f) : x ∈ l := by
  subst hl; exact List.mem_append_left t hx

theorem normalize_url_no_hash (url : String) : '#' ∉ (normalize_url url).data := by
  intro h
  obtain ⟨t, ht⟩ := rstripChar_front '/' (defragList url.data)
  exact defragList_no_hash url.data (mem_of_front ht h)

theorem normalize_url_idem (url : String) :
    normalize_url (normalize_url url) = normalize_url url := by
  have hnh : '#' ∉ (normalize_url url).data := normalize_url_no_hash url
  show (⟨rstripChar '/' (defragList (normalize_url url).data)⟩ : String) = _
  rw [defragList_of_no_hash _ hnh]
  show (⟨rstripChar '/' (rstripChar '/' (defragList url.data))⟩ : String) = _
  rw [rstripChar_idem]
  rfl

/-! ## Infrastructure lemmas about the loop -/

theorem crawl_halt (net : Net) (mp md : Nat) (base : String) (n : Nat)
    (s : CrawlState) (h : s.q = [] ∨ ¬ s.written < mp) :
    crawl net mp md base n s = s := by
  cases n with
  | zero => rfl
  | succ n =>
    show (if s.q = [] ∨ ¬ s.written < mp then s
      else crawl net mp md base n (step net md base s)) = s
    rw [if_pos h]

theorem crawl_one (net : Net) (mp md : Nat) (base : String) (n : Nat)
    (s : CrawlState) (h : ¬ (s.q = [] ∨ ¬ s.written < mp)) :
    crawl net mp md base (n + 1) s = crawl net mp md base n (step net md base s) := by
  simp only [crawl, if_neg h]

theorem crawl_add (net : Net) (mp md : Nat) (base : String) (a b : Nat)
    (s : CrawlState) :
    crawl net mp md base (a + b) s
      = crawl net mp md base b (crawl net mp md base a s) := by
  induction a generalizing s with
  | zero => simp [crawl]
  | succ a ih =>
    by_cases hg : s.q = [] ∨ ¬ s.written < mp
    · rw [crawl_halt net mp md base (a + 1) s hg]
      have : a + 1 + b = (a + b) + 1 := by omega
      rw [this, crawl_halt net mp md base ((a + b) + 1) s hg,
        crawl_halt net mp md base b s hg]
    · have hab : a + 1 + b = (a + b) + 1 := by omega
      rw [hab, crawl_one net mp md base (a + b) s hg, ih,
        crawl_one net mp md base a s hg]

theorem crawl_inv (net : Net) (mp md : Nat) (base : String)
    (P : CrawlState → Prop)
    (hstep : ∀ s, P s → s.q ≠ [] → s.written < mp → P (step net md base s)) :
    ∀ n s, P s → P (crawl net mp md base n s) := by
  intro n
  induction n with
  | zero => intro s h; exact h
  | succ n ih =>
    intro s h
    by_cases hg : s.q = [] ∨ ¬ s.written < mp
    · rw [crawl_halt net mp md base (n + 1) s hg]; exact h
    · rw [crawl_one net mp md base n s hg]
      push_neg at hg
      exact ih _ (hstep s h hg.1 hg.2)

/-! ## Helper lemmas about the pieces of `step` -/

theorem writtenAfter_le (w : Nat) (r : Option String) :
    writtenAfter w r ≤ w + 1 := by
  cases r with
  | none => exact Nat.le_succ w
  | some t =>
    by_cases ht : t ≠ ""
    · simp [writtenAfter, ht]
    · simp [writtenAfter, ht]

theorem sectionsAfter_length (secs : List (String × String)) (url : String)
    (r : Option String) (w : Nat) (h : secs.length = w) :
    (sectionsAfter secs url r).length = writtenAfter w r := by
  cases r with
  | none => simpa [sectionsAfter, writtenAfter] using h
  | some t =>
    by_cases ht : t ≠ ""
    · simp [sectionsAfter, writtenAfter, ht, h]
    · simp [sectionsAfter, writtenAfter, ht, h]

theorem enqueueLinks_mem (visited : List String) (depth : Nat)
    (links : List String) (q : List (String × Nat)) (e : String × Nat)
    (h : e ∈ enqueueLinks visited depth links q) :
    e ∈ q ∨ (e.1 ∈ links ∧ e.2 = depth + 1) := by
  induction links generalizing q with
  | nil => exact Or.inl h
  | cons l ls ih =>
    simp only [enqueueLinks, List.foldl_cons] at h
    by_cases hl : l ∈ visited
    · rcases ih _ (by simpa [enqueueLinks, hl] using h) with hq | hr
      · exact Or.inl hq
      · exact Or.inr ⟨List.mem_cons_of_mem l hr.1, hr.2⟩
    · rcases ih _ (by simpa [enqueueLinks, hl] using h) with hq | hr
      · rcases List.mem_append.1 hq with hq | hq
        · exact Or.inl hq
        · simp only [List.mem_singleton] at hq
          subst hq
          exact Or.inr ⟨List.mem_cons_self l ls, rfl⟩
      · exact Or.inr ⟨List.mem_cons_of_mem l hr.1, hr.2⟩

theorem insertLink_mem (links : List String) (u x : String)
    (h : x ∈ insertLink links u) : x ∈ links ∨ x = u := by
  by_cases hu : u ∈ links
  · exact Or.inl (by simpa [insertLink, hu] using h)
  · exact (by simpa [insertLink, hu] using h : x ∈ links ∨ x = u)

theorem addLink_mem (base : String) (acc : List String) (href x : String)
    (h : x ∈ addLink base acc href) :
    x ∈ acc ∨ ∃ y, x = normalize_url y := by
  by_cases hs : same_domain base (normalize_url (urljoin base href))
  · rcases insertLink_mem acc (normalize_url (urljoin base href)) x
        (by simpa [addLink, hs] using h) with hx | hx
    · exact Or.inl hx
    · exact Or.inr ⟨urljoin base href, hx⟩
  · exact Or.inl (by simpa [addLink, hs] using h)

theorem foldl_addLink_mem (base : String) (hrefs : List String)
    (acc : List String) (x : String) (h : x ∈ hrefs.foldl (addLink base) acc) :
    x ∈ acc ∨ ∃ y, x = normalize_url y := by
  induction hrefs generalizing acc with
  | nil => exact Or.inl h
  | cons r rs ih =>
    rcases ih (addLink base acc r) (by simpa using h) with hx | hx
    · exact addLink_mem base acc r x hx
    · exact Or.inr hx

theorem get_sublinks_normalized (net : Net) (k : Nat) (base url x : String)
    (h : x ∈ get_sublinks net k base url) : normalize_url x = x := by
  unfold get_sublinks at h
  cases hnet : net k url with
  | none => rw [hnet] at h; simp at h
  | some p =>
    rw [hnet] at h
    rcases foldl_addLink_mem base p.hrefs [] x h with hx | ⟨y, hy⟩
    · simp at hx
    · rw [hy, normalize_url_idem]

theorem step_nil (net : Net) (md : Nat) (base : String) (s : CrawlState)
    (hq : s.q = []) : step net md base s = s := by
  unfold step
  rw [hq]

theorem step_dup (net : Net) (md : Nat) (base : String) (s : CrawlState)
    (url : String) (depth : Nat) (rest : List (String × Nat))
    (hq : s.q = (url, depth) :: rest) (hv : url ∈ s.visited) :
    step net md base s = { s with q := rest } := by
  unfold step
  rw [hq]
  simp [hv]

theorem step_deep (net : Net) (md : Nat) (base : String) (s : CrawlState)
    (url : String) (depth : Nat) (rest : List (String × Nat))
    (hq : s.q = (url, depth) :: rest) (hv : url ∉ s.visited) (hd : depth < md) :
    step net md base s =
      { q := enqueueLinks (s.visited ++ [url]) depth
              (get_sublinks net (s.calls + 1) base url) rest
        visited := s.visited ++ [url]
        sections := sectionsAfter s.sections url (extract_text net s.calls url)
        written := writtenAfter s.written (extract_text net s.calls url)
        calls := s.calls + 2
        fetched := s.fetched ++ [url, url]
        textFetched := s.textFetched ++ [url]
        processed := s.processed ++ [(url, depth)] } := by
  unfold step
  rw [hq]
  simp [hv, hd]

theorem step_shallow (net : Net) (md : Nat) (base : String) (s : CrawlState)
    (url : String) (depth : Nat) (rest : List (String × Nat))
    (hq : s.q = (url, depth) :: rest) (hv : url ∉ s.visited) (hd : ¬ depth < md) :
    step net md base s =
      { q := rest
        visited := s.visited ++ [url]
        sections := sectionsAfter s.sections url (extract_text net s.calls url)
        written := writtenAfter s.written (extract_text net s.calls url)
        calls := s.calls + 1
        fetched := s.fetched ++ [url]
        textFetched := s.textFetched ++ [url]
        processed := s.processed ++ [(url, depth)] } := by
  unfold step
  rw [hq]
  simp [hv, hd]

/-! ## Counting helpers -/

theorem count_app1 (l : List String) (u a : String) :
    (l ++ [u]).count a = l.count a + (if a = u then 1 else 0) := by
  by_cases h : a = u <;>
    simp [List.count_append, List.count_cons, List.count_nil, h]

theorem count_app2 (l : List String) (u a : String) :
    (l ++ [u, u]).count a = l.count a + (if a = u then 2 else 0) := by
  by_cases h : a = u <;>
    simp [List.count_append, List.count_cons, List.count_nil, h]

theorem not_mem_app1 (l : List String) (u a : String) (h : a ∉ l ++ [u]) :
    a ∉ l ∧ a ≠ u := by
  simp only [List.mem_append, List.mem_singleton, not_or] at h
  exact h

theorem step_FetchInv (net : Net) (md : Nat) (base : String) (s : CrawlState)
    (hP : FetchInv s) : FetchInv (step net md base s) := by
  rcases hqs : s.q with _ | ⟨⟨url, depth⟩, rest⟩
  · rw [step_nil net md base s hqs]; exact hP
  · by_cases hv : url ∈ s.visited
    · rw [step_dup net md base s url depth rest hqs hv]
      intro a
      exact hP a
    · by_cases hd : depth < md
      · rw [step_deep net md base s url depth rest hqs hv hd]
        intro a
        obtain ⟨h0, h1, h2, h3⟩ := hP a
        simp only [List.map_append, List.map_cons, List.map_nil]
        by_cases ha : a = url
        · subst ha
          obtain ⟨z1, z2, z3⟩ := h0 hv
          refine ⟨fun hmem => absurd (by simp) hmem, ?_, ?_, ?_⟩
          · rw [count_app2, z1, if_pos rfl]
          · rw [count_app1, z2, if_pos rfl]
          · rw [show ((s.processed.map Prod.fst) ++ [(a, depth).1]).count a
                = (s.processed.map Prod.fst).count a + (if a = (a, depth).1 then 1 else 0)
              from count_app1 _ _ _, z3, if_pos rfl]
        · refine ⟨fun hmem => ?_, ?_, ?_, ?_⟩
          · have hna : a ∉ s.visited := by
              intro hin
              exact hmem (List.mem_append_left _ hin)
            obtain ⟨z1, z2, z3⟩ := h0 hna
            refine ⟨?_, ?_, ?_⟩
            · rw [count_app2, z1, if_neg ha]
            · rw [count_app1, z2, if_neg ha]
            · rw [count_app1, z3]; simp [ha]
          · rw [count_app2, if_neg ha]; simpa using h1
          · rw [count_app1, if_neg ha]; simpa using h2
          · rw [count_app1]; simp only [ha, if_false]; simpa using h3
      · rw [step_shallow net md base s url depth rest hqs hv hd]
        intro a
        obtain ⟨h0, h1, h2, h3⟩ := hP a
        simp only [List.map_append, List.map_cons, List.map_nil]
        by_cases ha : a = url
        · subst ha
          obtain ⟨z1, z2, z3⟩ := h0 hv
          refine ⟨fun hmem => absurd (by simp) hmem, ?_, ?_, ?_⟩
          · rw [count_app1, z1, if_pos rfl]; omega
          · rw [count_app1, z2, if_pos rfl]
          · rw [count_app1, z3, if_pos rfl]
        · refine ⟨fun hmem => ?_, ?_, ?_, ?_⟩
          · have hna : a ∉ s.visited := by
              intro hin
              exact hmem (List.mem_append_left _ hin)
            obtain ⟨z1, z2, z3⟩ := h0 hna
            refine ⟨?_, ?_, ?_⟩
            · rw [count_app1, z1, if_neg ha]
            · rw [count_app1, z2, if_neg ha]
            · rw [count_app1, z3]; simp [ha]
          · rw [count_app1, if_neg ha]; simpa using h1
          · rw [count_app1, if_neg ha]; simpa using h2
          · rw [count_app1]; simp only [ha, if_false]; simpa using h3

theorem step_BudgetInv (net : Net) (mp md : Nat) (base : String) (s : CrawlState)
    (hP : BudgetInv mp s) (hw : s.written < mp) : BudgetInv mp (step net md base s) := by
  rcases hqs : s.q with _ | ⟨⟨url, depth⟩, rest⟩
  · rw [step_nil net md base s hqs]; exact hP
  · by_cases hv : url ∈ s.visited
    · rw [step_dup net md base s url depth rest hqs hv]; exact hP
    · have hlen := sectionsAfter_length s.sections url (extract_text net s.calls url)
        s.written hP.1
      have hle := writtenAfter_le s.written (extract_text net s.calls url)
      by_cases hd : depth < md
      · rw [step_deep net md base s url depth rest hqs hv hd]
        refine ⟨hlen, ?_⟩
        show writtenAfter s.written (extract_text net s.calls url) ≤ mp
        omega
      · rw [step_shallow net md base s url depth rest hqs hv hd]
        refine ⟨hlen, ?_⟩
        show writtenAfter s.written (extract_text net s.calls url) ≤ mp
        omega

theorem step_DepthInv (net : Net) (md : Nat) (base : String) (s : CrawlState)
    (hP : DepthInv md s) : DepthInv md (step net md base s) := by
  rcases hqs : s.q with _ | ⟨⟨url, depth⟩, rest⟩
  · rw [step_nil net md base s hqs]; exact hP
  · have hdep : depth ≤ md := hP.1 url depth (by rw [hqs]; exact List.mem_cons_self _ _)
    have hrest : ∀ u d, (u, d) ∈ rest → d ≤ md := fun u d hm =>
      hP.1 u d (by rw [hqs]; exact List.mem_cons_of_mem _ hm)
    by_cases hv : url ∈ s.visited
    · rw [step_dup net md base s url depth rest hqs hv]
      exact ⟨hrest, hP.2⟩
    · by_cases hd : depth < md
      · rw [step_deep net md base s url depth rest hqs hv hd]
        refine ⟨fun u d hm => ?_, fun u d hm => ?_⟩
        · rcases enqueueLinks_mem _ _ _ _ _ hm with hq | hr
          · exact hrest u d hq
          · simp only at hr
            omega
        · rcases List.mem_append.1 hm with hm | hm
          · exact hP.2 u d hm
          · simp only [List.mem_singleton, Prod.mk.injEq] at hm
            omega
      · rw [step_shallow net md base s url depth rest hqs hv hd]
        refine ⟨hrest, fun u d hm => ?_⟩
        rcases List.mem_append.1 hm with hm | hm
        · exact hP.2 u d hm
        · simp only [List.mem_singleton, Prod.mk.injEq] at hm
          omega

theorem step_SeedOnlyInv (net : Net) (base seed : String) (s : CrawlState)
    (hP : SeedOnlyInv seed s) : SeedOnlyInv seed (step net 0 base s) := by
  rcases hqs : s.q with _ | ⟨⟨url, depth⟩, rest⟩
  · rw [step_nil net 0 base s hqs]; exact hP
  · have hhead : ((url, depth) : String × Nat) = (seed, 0) :=
      hP.1 _ (by rw [hqs]; exact List.mem_cons_self _ _)
    have hurl : url = seed := by
      simpa using congrArg Prod.fst hhead
    have hrest : ∀ e ∈ rest, e = (seed, 0) := fun e hm =>
      hP.1 e (by rw [hqs]; exact List.mem_cons_of_mem _ hm)
    by_cases hv : url ∈ s.visited
    · rw [step_dup net 0 base s url depth rest hqs hv]
      exact ⟨hrest, hP.2⟩
    · have hd : ¬ depth < 0 := Nat.not_lt_zero depth
      rw [step_shallow net 0 base s url depth rest hqs hv hd]
      refine ⟨hrest, fun u hm => ?_⟩
      rcases List.mem_append.1 hm with hm | hm
      · exact hP.2 u hm
      · simp only [List.mem_singleton] at hm
        rw [hm, hurl]

theorem step_NormInv (net : Net) (md : Nat) (base : String) (s : CrawlState)
    (hP : NormInv s) : NormInv (step net md base s) := by
  rcases hqs : s.q with _ | ⟨⟨url, depth⟩, rest⟩
  · rw [step_nil net md base s hqs]; exact hP
  · have hurl : normalize_url url = url :=
      hP.2 url depth (by rw [hqs]; exact List.mem_cons_self _ _)
    have hrest : ∀ u d, (u, d) ∈ rest → normalize_url u = u := fun u d hm =>
      hP.2 u d (by rw [hqs]; exact List.mem_cons_of_mem _ hm)
    have hvis : ∀ a ∈ s.visited ++ [url], normalize_url a = a := by
      intro a hm
      rcases List.mem_append.1 hm with hm | hm
      · exact hP.1 a hm
      · simp only [List.mem_singleton] at hm
        rw [hm]; exact hurl
    by_cases hv : url ∈ s.visited
    · rw [step_dup net md base s url depth rest hqs hv]
      exact ⟨hP.1, hrest⟩
    · by_cases hd : depth < md
      · rw [step_deep net md base s url depth rest hqs hv hd]
        refine ⟨hvis, fun u d hm => ?_⟩
        rcases enqueueLinks_mem _ _ _ _ _ hm with hq | hr
        · exact hrest u d hq
        · exact get_sublinks_normalized net (s.calls + 1) base url u hr.1
      · rw [step_shallow net md base s url depth rest hqs hv hd]
        exact ⟨hvis, hrest⟩

/-! ## The claims -/


/-- C1 (counterexample): processing a single dequeued entry already issues
two GETs of the same address — one in `extract_text`, one in `get_sublinks` —
so with every fetch succeeding, one iteration on the seed leaves the seed
twice in the fetch trace, refuting "each normalized address is fetched at
most once in total, even within the processing of a single dequeued entry". -/
theorem seed_fetched_twice_in_one_iteration :
    ¬ ((crawlRun constNet 5 5 "http://e/a" 1).fetched.count "http://e/a" ≤ 1) := by
  decide

/-- C1 (amended): in every run an address is dequeued-and-processed at most
once and passed to the `extract_text` GET at most once; but because sublink
discovery is a second, separate GET of the same address, the total number of
GETs per address is bounded by two, not one. -/
theorem at_most_two_fetches_per_address (net : Net) (mp md : Nat)
    (start_url : String) (fuel : Nat) (a : String) :
    (crawlRun net mp md start_url fuel).fetched.count a ≤ 2
    ∧ (crawlRun net mp md start_url fuel).textFetched.count a ≤ 1
    ∧ ((crawlRun net mp md start_url fuel).processed.map Prod.fst).count a ≤ 1 := by
  have hinit : FetchInv (initState start_url) := by
    intro x
    simp [initState, FetchInv]
  have h := crawl_inv net mp md (normalize_url start_url) FetchInv
    (fun s hP _ _ => step_FetchInv net md (normalize_url start_url) s hP)
    fuel (initState start_url) hinit
  exact ⟨(h a).2.1, (h a).2.2.1, (h a).2.2.2⟩

/-- C2 (counterexample): with the first GET failing and all later GETs
succeeding, the seed's `extract_text` fetch (call index 0) fails, so the
Document gets no section for the seed — yet the separate `get_sublinks` GET
succeeds, and the child is enqueued, processed at depth 1 and written,
refuting "enqueues none of its children". -/
theorem child_enqueued_after_failed_fetch :
    (crawlRun flakyNet 10 10 "http://e/a" 2).sections = [("http://e/b", "TB")]
    ∧ (crawlRun flakyNet 10 10 "http://e/a" 2).processed
        = [("http://e/a", 0), ("http://e/b", 1)] := by
  decide

/-- C2 (amended): when the `extract_text` GET of a dequeued, unvisited
address fails, nothing is recorded in the Document and the page counter does
not move; children are discovered through the separate `get_sublinks` GET, so
none are enqueued exactly when that second GET also fails or the entry
already sits at `max_depth`. -/
theorem failed_fetch_records_nothing (net : Net) (md : Nat) (base url : String)
    (depth : Nat) (rest : List (String × Nat)) (s : CrawlState)
    (hq : s.q = (url, depth) :: rest) (hv : url ∉ s.visited)
    (hfail : net s.calls url = none) :
    (step net md base s).sections = s.sections
    ∧ (step net md base s).written = s.written
    ∧ ((net (s.calls + 1) url = none ∨ ¬ depth < md) → (step net md base s).q = rest) := by
  have htext : extract_text net s.calls url = none := by
    simp [extract_text, hfail]
  by_cases hd : depth < md
  · rw [step_deep net md base s url depth rest hq hv hd]
    refine ⟨?_, ?_, ?_⟩
    · show sectionsAfter s.sections url (extract_text net s.calls url) = s.sections
      rw [htext]; rfl
    · show writtenAfter s.written (extract_text net s.calls url) = s.written
      rw [htext]; rfl
    · rintro (hfail2 | hd2)
      · show enqueueLinks (s.visited ++ [url]) depth
          (get_sublinks net (s.calls + 1) base url) rest = rest
        simp [get_sublinks, hfail2, enqueueLinks]
      · exact absurd hd hd2
  · rw [step_shallow net md base s url depth rest hq hv hd]
    refine ⟨?_, ?_, fun _ => rfl⟩
    · show sectionsAfter s.sections url (extract_text net s.calls url) = s.sections
      rw [htext]; rfl
    · show writtenAfter s.written (extract_text net s.calls url) = s.written
      rw [htext]; rfl

/-- C2 witness: the amended step property on a concrete state whose two GETs
of the seed both fail. -/
theorem failed_fetch_records_nothing_witness :
    (step downNet 5 "http://e/a" (initState "http://e/a")).sections = []
    ∧ (step downNet 5 "http://e/a" (initState "http://e/a")).written = 0
    ∧ (step downNet 5 "http://e/a" (initState "http://e/a")).q = [] := by
  have h := failed_fetch_records_nothing downNet 5 "http://e/a" "http://e/a" 0 []
    (initState "http://e/a") (by decide) (by decide) (by decide)
  exact ⟨h.1, h.2.1, h.2.2 (Or.inl (by decide))⟩

/-- C3: in every run — any oracle, any configuration (the spec's CrawlConfig
has `max_pages ≥ 1`, and `main` clamps it there, so `Nat` carries it), any
number of loop iterations — the number of sections appended to the Document
never exceeds `max_pages`. -/
theorem sections_never_exceed_max_pages (net : Net) (mp md : Nat)
    (start_url : String) (fuel : Nat) :
    (crawlRun net mp md start_url fuel).sections.length ≤ mp := by
  unfold crawlRun
  have h := crawl_inv net mp md (normalize_url start_url) (BudgetInv mp)
    (fun s hP _ hw => step_BudgetInv net mp md (normalize_url start_url) s hP hw)
    fuel (initState start_url) ⟨rfl, Nat.zero_le mp⟩
  obtain ⟨h1, h2⟩ := h
  omega

/-- C4 (counterexample): `main` does not treat non-positive bounds as fatal:
with `max_pages = 0` and `timeout = 0` (and a well-formed start URL) it clamps
them and proceeds to crawl, where the claim demands a fatal ConfigError
before any crawling; only a start URL without an explicit scheme aborts. -/
theorem nonpositive_bounds_not_fatal :
    mainValidate "http://example.com" 0 2 0 0 = some ⟨1, 2, 0, 1⟩
    ∧ mainValidate "example.com" 50 2 0 10 = none := by
  decide

/-- C4 (amended): only a start URL lacking an explicit `http://`/`https://`
scheme is fatal before crawling; non-positive numeric bounds are silently
clamped to the smallest legal values (`max_pages` and `timeout` to 1,
`max_depth` and the delay to 0) and crawling proceeds. -/
theorem main_clamps_bounds (start_url : String) (mp md dl t : Int)
    (c : EffConfig) (h : mainValidate start_url mp md dl t = some c) :
    (strStartsWith start_url "http://" ∨ strStartsWith start_url "https://")
    ∧ 1 ≤ c.maxPages ∧ 0 ≤ c.maxDepth ∧ 0 ≤ c.delaySeconds ∧ 1 ≤ c.timeout := by
  unfold mainValidate at h
  by_cases hs : strStartsWith start_url "http://" || strStartsWith start_url "https://"
  · rw [if_pos hs] at h
    cases h
    refine ⟨by simpa using hs, ?_, ?_, ?_, ?_⟩
    · exact le_max_left 1 mp
    · exact le_max_left 0 md
    · exact le_max_left 0 dl
    · exact le_max_left 1 t
  · rw [if_neg hs] at h
    exact absurd h (by simp)

/-- C4 witness: the amended claim at a concrete call of `main` with
`max_pages = 0` and `timeout = 0`. -/
theorem main_clamps_bounds_witness :
    (strStartsWith "http://example.com" "http://"
      ∨ strStartsWith "http://example.com" "https://")
    ∧ 1 ≤ (1 : Int) ∧ 0 ≤ (2 : Int) ∧ 0 ≤ (0 : Int) ∧ 1 ≤ (1 : Int) :=
  main_clamps_bounds "http://example.com" 0 2 0 0 ⟨1, 2, 0, 1⟩ (by decide)

theorem rstripChar_of_getLast (c : Char) (l : List Char)
    (h : l.getLast? ≠ some c) : rstripChar c l = l := by
  have hgr : l.getLast? = l.reverse.head? := by
    have h2 := List.getLast?_reverse l.reverse
    rw [List.reverse_reverse] at h2
    exact h2
  unfold rstripChar
  rcases hrev : l.reverse with _ | ⟨x, xs⟩
  · have hl : l = [] := by simpa using congrArg List.reverse hrev
    simp [hl]
  · have hx : ¬ x = c := by
      intro hxc
      apply h
      rw [hgr, hrev, hxc]
      rfl
    have hxb : (x == c) = false := by simpa using hx
    have hd : (x :: xs).dropWhile (fun y => y == c) = x :: xs := by
      simp [List.dropWhile, hxb]
    rw [hd, ← hrev, List.reverse_reverse]

/-- C5 (counterexample): `normalize_url` calls `rstrip("/")`, which removes
every trailing slash: a URL ending in two slashes loses both, where the
claim says exactly one is removed and one kept. -/
theorem normalize_removes_all_trailing_slashes :
    normalize_url "http://example.com//" = "http://example.com"
    ∧ normalize_url "http://example.com//" ≠ "http://example.com/" := by
  decide

/-- C5 (amended): `normalize_url` strips any fragment and removes all
trailing slashes: its result contains no `'#'`, never ends in `'/'`, and an
input already free of both comes back unchanged (on a fragment-free URL
CPython's `urldefrag` is the identity). -/
theorem normalize_url_behavior (url : String) :
    '#' ∉ (normalize_url url).data
    ∧ (normalize_url url).data.getLast? ≠ some '/'
    ∧ ('#' ∉ url.data → url.data.getLast? ≠ some '/' → normalize_url url = url) := by
  refine ⟨normalize_url_no_hash url, ?_, ?_⟩
  · show (rstripChar '/' (defragList url.data)).getLast? ≠ some '/'
    exact rstripChar_last '/' (defragList url.data)
  · intro hnh hsl
    show (⟨rstripChar '/' (defragList url.data)⟩ : String) = url
    rw [defragList_of_no_hash url.data hnh, rstripChar_of_getLast '/' url.data hsl]

/-- C5 witness: the amended behavior at concrete inputs, using the theorem's
conditional part on a URL with neither fragment nor trailing slash. -/
theorem normalize_url_behavior_witness :
    '#' ∉ (normalize_url "http://w5/x").data
    ∧ normalize_url "http://w5/x" = "http://w5/x" := by
  refine ⟨(normalize_url_behavior "http://w5/x").1, ?_⟩
  exact (normalize_url_behavior "http://w5/x").2.2 (by decide) (by decide)

/-- C6 (counterexample): `same_domain` never compares the candidate's scheme
to the start's: an `https` candidate on the same host as an `http` start is
admitted even though the schemes differ, refuting "scheme and host both equal
the start address's". -/
theorem same_domain_admits_scheme_mismatch :
    same_domain "http://example.com" "https://example.com/page" = true
    ∧ (urlparse "https://example.com/page").scheme
        ≠ (urlparse "http://example.com").scheme := by
  decide

/-- C6 (amended): the origin filter admits a candidate iff the candidate's
scheme is `http` or `https` — the start's own scheme is never consulted —
and the candidate's netloc equals the start's netloc. -/
theorem same_domain_characterization (base candidate : String) :
    same_domain base candidate = true
    ↔ ((urlparse candidate).scheme = "http" ∨ (urlparse candidate).scheme = "https")
      ∧ (urlparse candidate).netloc = (urlparse base).netloc := by
  unfold same_domain
  simp [Bool.and_eq_true, Bool.or_eq_true, beq_iff_eq]

/-- C6 witness: the characterization applied at a concrete admitted pair. -/
theorem same_domain_characterization_witness :
    same_domain "http://w6.org" "http://w6.org/a" = true :=
  (same_domain_characterization "http://w6.org" "http://w6.org/a").2 (by decide)

/-- C7: normalization is idempotent — for every address string,
`normalize_url (normalize_url a) = normalize_url a`. -/
theorem normalize_url_idempotent (a : String) :
    normalize_url (normalize_url a) = normalize_url a :=
  normalize_url_idem a

/-- C8: in every run no entry is dequeued-and-processed at a depth greater
than `max_depth` (children enter the frontier at `depth + 1` only when their
parent's depth is strictly below `max_depth`), and with `max_depth = 0` every
GET ever issued targets only the normalized start address. -/
theorem depth_bound_respected (net : Net) (mp md : Nat) (start_url : String)
    (fuel : Nat) :
    (∀ u d, (u, d) ∈ (crawlRun net mp md start_url fuel).processed → d ≤ md)
    ∧ (md = 0 → ∀ u ∈ (crawlRun net mp md start_url fuel).fetched,
        u = normalize_url start_url) := by
  constructor
  · have hinit : DepthInv md (initState start_url) := by
      constructor
      · intro u d hm
        simp only [initState, List.mem_singleton, Prod.mk.injEq] at hm
        omega
      · intro u d hm
        simp [initState] at hm
    have h := crawl_inv net mp md (normalize_url start_url) (DepthInv md)
      (fun s hP _ _ => step_DepthInv net md (normalize_url start_url) s hP)
      fuel (initState start_url) hinit
    exact h.2
  · intro hmd0
    subst hmd0
    have hinit : SeedOnlyInv (normalize_url start_url) (initState start_url) := by
      constructor
      · intro e he
        simpa [initState] using he
      · intro u hu
        simp [initState] at hu
    have h := crawl_inv net mp 0 (normalize_url start_url)
      (SeedOnlyInv (normalize_url start_url))
      (fun s hP _ _ =>
        step_SeedOnlyInv net (normalize_url start_url) (normalize_url start_url) s hP)
      fuel (initState start_url) hinit
    exact h.2

/-- C8 witness: the depth bound and the seed-only property at a concrete
one-iteration run with `max_depth = 0`. -/
theorem depth_bound_respected_witness :
    (0 : Nat) ≤ 0 ∧ "http://w8" = normalize_url "http://w8" := by
  constructor
  · exact (depth_bound_respected downNet 1 0 "http://w8" 1).1 "http://w8" 0 (by decide)
  · exact (depth_bound_respected downNet 1 0 "http://w8" 1).2 rfl "http://w8" (by decide)

/-- C9: on the linear chain A→B→C→D with `max_pages = 10`, `max_depth = 10`
and every fetch succeeding with non-empty text, the loop's frontier is empty
after four iterations and stays so under any surplus fuel, and the Document
holds exactly the four sections A, B, C, D in breadth-first order. -/
theorem linear_chain_scenario (n : Nat) :
    (crawlRun chainNet 10 10 "http://ex.com/a" (4 + n)).sections
      = [("http://ex.com/a", "TA"), ("http://ex.com/b", "TB"),
         ("http://ex.com/c", "TC"), ("http://ex.com/d", "TD")]
    ∧ (crawlRun chainNet 10 10 "http://ex.com/a" (4 + n)).q = [] := by
  have h4q : (crawlRun chainNet 10 10 "http://ex.com/a" 4).q = [] := by decide
  have hcomp : crawlRun chainNet 10 10 "http://ex.com/a" (4 + n)
      = crawlRun chainNet 10 10 "http://ex.com/a" 4 := by
    unfold crawlRun
    rw [crawl_add]
    exact crawl_halt chainNet 10 10 (normalize_url "http://ex.com/a") n _ (Or.inl h4q)
  rw [hcomp]
  exact ⟨by decide, h4q⟩

/-- C10: at every point of every run, every address in the visited set and
every address in the frontier queue is a fixed point of `normalize_url`: the
seed is normalized before being enqueued and every discovered link is
normalized in `get_sublinks` before the enqueue check. -/
theorem frontier_and_visited_normalized (net : Net) (mp md : Nat)
    (start_url : String) (fuel : Nat) :
    (∀ a ∈ (crawlRun net mp md start_url fuel).visited, normalize_url a = a)
    ∧ (∀ u d, (u, d) ∈ (crawlRun net mp md start_url fuel).q → normalize_url u = u) := by
  have hinit : NormInv (initState start_url) := by
    constructor
    · intro a ha
      simp [initState] at ha
    · intro u d hm
      simp only [initState, List.mem_singleton, Prod.mk.injEq] at hm
      rw [hm.1]
      exact normalize_url_idem start_url
  exact crawl_inv net mp md (normalize_url start_url) NormInv
    (fun s hP _ _ => step_NormInv net md (normalize_url start_url) s hP)
    fuel (initState start_url) hinit

/-- C10 witness: the invariant read off a concrete one-iteration run. -/
theorem frontier_and_visited_normalized_witness :
    normalize_url "http://w10" = "http://w10" :=
  (frontier_and_visited_normalized downNet 1 5 "http://w10" 1).1 "http://w10" (by decide)
